import Mathlib

/-!
Verification of the aggregation engine of the AI-verdict dashboard widget
(`src/components/CountDown/index.tsx`).

The widget's core is:
* `normalizeText` — turns an arbitrary host cell value into a display string;
* the aggregation effect — given a configuration naming three columns
  (behavior / AI verdict / reviewer verdict) it scans all records, buckets
  them by normalized behavior text, counts the four verdict combinations, and
  shows the result sorted by the category text.

We embed the cell values as the tagged union actually observed by the code
(null/undefined, string, number, boolean, array, object with optional
`text`/`name` string properties), and the stateful React effect as an explicit
state-transition function that also counts `getValue` accessor calls.
-/

/-- A raw host cell value, as discriminated by `normalizeText`:
`jsNull` covers both `null` and `undefined`; `obj t n` is an object whose
`text` property (if present) holds `t` and whose `name` property (if present)
holds `n`; all other objects coerce to `"[object Object]"`. -/
inductive RawCellValue where
  | jsNull : RawCellValue
  | str : String → RawCellValue
  | num : Int → RawCellValue
  | bool : Bool → RawCellValue
  | arr : List RawCellValue → RawCellValue
  | obj : Option String → Option String → RawCellValue

/-- `normalizeText` from the source: null/undefined give `""`; strings are
returned unchanged; a non-empty array recurses into its first element and an
empty array gives `""`; an object yields its `text` property, else its `name`
property; everything else is coerced with `String(v)` (numbers and booleans to
their decimal/text form, an untagged object to `"[object Object]"`). -/
def normalizeText : RawCellValue → String
  | .jsNull => ""
  | .str s => s
  | .arr [] => ""
  | .arr (x :: _) => normalizeText x
  | .obj (some t) _ => t
  | .obj none (some n) => n
  | .obj none none => "[object Object]"
  | .num n => toString n
  | .bool b => if b then "true" else "false"

/-- One category's four counters (`ILinePoint` minus the category label). -/
structure Tally where
  aiNormal : Nat
  aiViolation : Nat
  reviewerNormal : Nat
  reviewerViolation : Nat
deriving DecidableEq, Repr

/-- The all-zero tally created on the first record of a category. -/
def Tally.zero : Tally := ⟨0, 0, 0, 0⟩

/-- The three raw values fetched for one record. -/
structure RecordVals where
  behaviorRaw : RawCellValue
  aiRaw : RawCellValue
  reviewerRaw : RawCellValue

/-- Normalized category of a record. -/
def catOf (r : RecordVals) : String := normalizeText r.behaviorRaw

/-- Normalized AI verdict text of a record. -/
def aiOf (r : RecordVals) : String := normalizeText r.aiRaw

/-- Normalized reviewer verdict text of a record. -/
def revOf (r : RecordVals) : String := normalizeText r.reviewerRaw

/-- The two verdict `if/else if` chains of the loop body: bump `aiNormal` or
`aiViolation` according to the AI text, and independently `reviewerNormal` or
`reviewerViolation` according to the reviewer text. -/
def applyVerdicts (t : Tally) (aiText reviewerText : String) : Tally :=
  let t1 :=
    if aiText = "正常" then { t with aiNormal := t.aiNormal + 1 }
    else if aiText = "违规" then { t with aiViolation := t.aiViolation + 1 }
    else t
  if reviewerText = "正常" then { t1 with reviewerNormal := t1.reviewerNormal + 1 }
  else if reviewerText = "违规" then { t1 with reviewerViolation := t1.reviewerViolation + 1 }
  else t1

/-- The JS map `map[behavior]` as an insertion-ordered association list:
apply `f` to the entry at key `k`, creating it from `Tally.zero` at the end of
the list if absent (new keys of a JS object are appended in insertion order). -/
def updateAssoc (m : List (String × Tally)) (k : String) (f : Tally → Tally) :
    List (String × Tally) :=
  match m with
  | [] => [(k, f Tally.zero)]
  | (k', t) :: rest =>
    if k' = k then (k', f t) :: rest else (k', t) :: updateAssoc rest k f

/-- One iteration of the record loop: skip the record if its normalized
category is empty, otherwise ensure its tally exists and apply both verdict
chains. -/
def aggStep (m : List (String × Tally)) (r : RecordVals) : List (String × Tally) :=
  if catOf r = "" then m
  else updateAssoc m (catOf r) (fun t => applyVerdicts t (aiOf r) (revOf r))

/-- The whole record loop: fold `aggStep` over the records from an empty map. -/
def aggregateMap (rs : List RecordVals) : List (String × Tally) :=
  rs.foldl aggStep []

/-- Insert an entry into an already sorted series, keeping it before the first
entry it compares `le` to (a stable insertion). -/
def insertLe (le : String → String → Bool) (p : String × Tally) :
    List (String × Tally) → List (String × Tally)
  | [] => [p]
  | q :: rest => if le p.1 q.1 then p :: q :: rest else q :: insertLe le p rest

/-- `result.sort((a, b) => a.behavior.localeCompare(b.behavior, 'zh-CN'))`:
a stable sort of the series by category text under the comparator `le`, which
stands for `localeCompare(·, ·, 'zh-CN') <= 0`.  (JS `Array.prototype.sort`
is stable, so any stable sort gives the same list.) -/
def sortSeries (le : String → String → Bool) :
    List (String × Tally) → List (String × Tally)
  | [] => []
  | p :: rest => insertLe le p (sortSeries le rest)

/-- The pure aggregation pipeline: loop over the records, then sort the
entries of the category map by category text. -/
def aggregate (le : String → String → Bool) (rs : List RecordVals) :
    List (String × Tally) :=
  sortSeries le (aggregateMap rs)

/-- The stored configuration: three optional field ids. -/
structure IChartConfig where
  behaviorFieldId : Option String
  aiFieldId : Option String
  reviewerFieldId : Option String
deriving DecidableEq, Repr

/-- JS truthiness of an optional field id: set and non-empty. -/
def truthy : Option String → Bool
  | none => false
  | some s => s ≠ ""

/-- The configuration gate of the display effect:
`!config.behaviorFieldId || !config.aiFieldId || !config.reviewerFieldId`
negated — all three ids set and non-empty. -/
def gateB (c : IChartConfig) : Bool :=
  truthy c.behaviorFieldId && truthy c.aiFieldId && truthy c.reviewerFieldId

/-- The host table: a record-id list and a fallible `getValue fieldId recordId`
accessor (a rejected promise is `.error ()`). -/
structure Host where
  recordIds : List String
  getValue : String → String → Except Unit RawCellValue

/-- The component state the effect reads and writes: the displayed series
(`data`) and the loading flag. -/
structure UIState where
  data : List (String × Tally)
  loading : Bool
deriving DecidableEq, Repr

/-- Fetch the three raw values of one record, sequentially, stopping at the
first failed accessor call; also returns the number of `getValue` calls made. -/
def fetchRecord (h : Host) (bId aId rId : String) (rid : String) :
    Except Unit RecordVals × Nat :=
  match h.getValue bId rid with
  | .error e => (.error e, 1)
  | .ok b =>
    match h.getValue aId rid with
    | .error e => (.error e, 2)
    | .ok a =>
      match h.getValue rId rid with
      | .error e => (.error e, 3)
      | .ok rv => (.ok ⟨b, a, rv⟩, 3)

/-- The `for (const recordId of recordIdList)` loop: fetch each record's three
values and fold them into the category map; a failed accessor call aborts the
whole loop (the exception propagates out of the `for`).  Returns the loop
outcome and the total number of `getValue` calls made. -/
def runLoop (h : Host) (bId aId rId : String) :
    List String → List (String × Tally) → Except Unit (List (String × Tally)) × Nat
  | [], m => (.ok m, 0)
  | rid :: rest, m =>
    match fetchRecord h bId aId rId rid with
    | (.error e, n) => (.error e, n)
    | (.ok rv, n) =>
      let res := runLoop h bId aId rId rest (aggStep m rv)
      (res.1, n + res.2)

/-- The display-mode data effect (the fourth `useEffect`): in config mode or
when the gate fails it returns without touching the state; otherwise it runs
the record loop and either publishes the sorted series (`setData`) or, when
the loop failed, leaves the previous series in place; either way the
`finally` clears the loading flag.  The second component counts the
`getValue` calls made by the run. -/
def runEffect (le : String → String → Bool) (isConfig : Bool)
    (cfg : IChartConfig) (h : Host) (s : UIState) : UIState × Nat :=
  if isConfig then (s, 0)
  else if gateB cfg then
    let bId := cfg.behaviorFieldId.getD ""
    let aId := cfg.aiFieldId.getD ""
    let rId := cfg.reviewerFieldId.getD ""
    match runLoop h bId aId rId h.recordIds [] with
    | (.ok m, n) => (⟨sortSeries le m, false⟩, n)
    | (.error _, n) => (⟨s.data, false⟩, n)
  else (s, 0)

/-- A sequence of display-mode effect runs, each with its then-current
configuration and host data, starting from the initial mounted state
(empty series, not loading). -/
def runTrace (le : String → String → Bool)
    (events : List (IChartConfig × Host)) : UIState :=
  events.foldl (fun s e => (runEffect le false e.1 e.2 s).1) ⟨[], false⟩

/-- A concrete total order on strings (codepoint-wise), used to instantiate
the abstract collation comparator in witnesses. -/
def cpLeAux : List Char → List Char → Bool
  | [], _ => true
  | _ :: _, [] => false
  | a :: as, b :: bs =>
    if a.toNat < b.toNat then true
    else if b.toNat < a.toNat then false
    else cpLeAux as bs

/-- Codepoint-wise string comparator (a lawful stand-in collation). -/
def cpLe (a b : String) : Bool := cpLeAux a.data b.data

/-- The tally the map holds at category `c` (`Tally.zero` when absent —
the value the loop would start from for that category). -/
def lookupTally (m : List (String × Tally)) (c : String) : Tally :=
  (m.lookup c).getD Tally.zero

/-- The category texts of a series, in order. -/
def keys (m : List (String × Tally)) : List String := m.map Prod.fst

/-- The four verdict counts a record list yields for category `c`, written
directly as counting predicates (used to characterize the loop's map). -/
def tallyOf (rs : List RecordVals) (c : String) : Tally :=
  ⟨rs.countP (fun r => catOf r == c && aiOf r == "正常"),
   rs.countP (fun r => catOf r == c && aiOf r == "违规"),
   rs.countP (fun r => catOf r == c && revOf r == "正常"),
   rs.countP (fun r => catOf r == c && revOf r == "违规")⟩

/-! ## Lemmas about the category map -/

theorem lookup_updateAssoc_self (m : List (String × Tally)) (k : String)
    (f : Tally → Tally) :
    (updateAssoc m k f).lookup k = some (f (lookupTally m k)) := by
  induction m with
  | nil => simp [updateAssoc, lookupTally, List.lookup, Tally.zero]
  | cons p rest ih =>
    obtain ⟨k', t⟩ := p
    by_cases hk : k' = k
    · subst hk
      simp [updateAssoc, lookupTally, List.lookup]
    · simp only [updateAssoc, if_neg hk]
      have hk2 : (k == k') = false := by
        simp [beq_eq_false_iff_ne]
        exact fun h => hk h.symm
      simp [List.lookup, hk2, ih, lookupTally]

theorem lookup_updateAssoc_ne (m : List (String × Tally)) (k c : String)
    (f : Tally → Tally) (hne : c ≠ k) :
    (updateAssoc m k f).lookup c = m.lookup c := by
  have hck : (c == k) = false := beq_eq_false_iff_ne.mpr hne
  induction m with
  | nil => simp [updateAssoc, List.lookup, hck]
  | cons p rest ih =>
    obtain ⟨k', t⟩ := p
    by_cases hk : k' = k
    · subst hk
      simp [updateAssoc, List.lookup, hck]
    · simp [updateAssoc, if_neg hk, List.lookup, ih]

theorem applyVerdicts_eq (t : Tally) (a b : String) :
    applyVerdicts t a b =
      ⟨t.aiNormal + (if a = "正常" then 1 else 0),
       t.aiViolation + (if a = "违规" then 1 else 0),
       t.reviewerNormal + (if b = "正常" then 1 else 0),
       t.reviewerViolation + (if b = "违规" then 1 else 0)⟩ := by
  unfold applyVerdicts
  split_ifs <;> simp_all

/-! ## Claims about the normalizer -/

/-- C5: `normalizeText` is total over every raw cell value shape — for every
input (null/undefined, string, number, boolean, empty or non-empty array,
object with `text`, object with `name`, object with neither) it returns a
string and never fails; unrecognized shapes degrade to the generic string
coercion. -/
theorem normalizeText_total :
    (∀ v : RawCellValue, ∃ s : String, normalizeText v = s)
  ∧ normalizeText .jsNull = ""
  ∧ (∀ s : String, normalizeText (.str s) = s)
  ∧ normalizeText (.arr []) = ""
  ∧ normalizeText (.arr [.obj (some "A") none]) = "A"
  ∧ normalizeText (.obj (some "T") none) = "T"
  ∧ normalizeText (.obj none (some "N")) = "N"
  ∧ normalizeText (.obj none none) = "[object Object]"
  ∧ normalizeText (.num 7) = "7"
  ∧ normalizeText (.bool true) = "true" := by
  exact ⟨fun v => ⟨normalizeText v, rfl⟩, rfl, fun s => rfl, rfl, rfl, rfl, rfl, rfl, rfl, rfl⟩

/-- C8: on an array-like value `normalizeText` recursively normalizes the
first element only (the tail never influences the result), and the empty
array gives `""`; in particular `[{text:"A"}, {text:"B"}]` normalizes to
`"A"` and `[]` to `""`. -/
theorem normalizeText_first_element :
    (∀ (x : RawCellValue) (xs : List RawCellValue),
        normalizeText (.arr (x :: xs)) = normalizeText x)
  ∧ normalizeText (.arr []) = ""
  ∧ normalizeText (.arr [.obj (some "A") none, .obj (some "B") none]) = "A" := by
  exact ⟨fun x xs => rfl, rfl, rfl⟩

/-- C9: on a tagged object `normalizeText` returns the `text` property when
present (regardless of `name`), else the `name` property when present, else
falls through to the generic object coercion; in particular
`{text:"T", name:"N"}` normalizes to `"T"`. -/
theorem normalizeText_tag_precedence :
    (∀ (t : String) (n : Option String), normalizeText (.obj (some t) n) = t)
  ∧ (∀ n : String, normalizeText (.obj none (some n)) = n)
  ∧ normalizeText (.obj none none) = "[object Object]"
  ∧ normalizeText (.obj (some "T") (some "N")) = "T" := by
  refine ⟨fun t n => ?_, fun n => rfl, rfl, rfl⟩
  cases n <;> rfl

/-! ## Claims about one step of the aggregation loop -/

/-- C1: for a record whose normalized category is non-empty, the loop step
adds one to `aiNormal` exactly when the normalized AI text is `"正常"`, to
`aiViolation` exactly when it is `"违规"` (any other value changes neither),
and independently the same for the reviewer text against
`reviewerNormal`/`reviewerViolation`; tallies for every other category are
untouched. -/
theorem aggStep_verdict_counters (m : List (String × Tally)) (r : RecordVals)
    (h : catOf r ≠ "") :
    (lookupTally (aggStep m r) (catOf r)).aiNormal
      = (lookupTally m (catOf r)).aiNormal + (if aiOf r = "正常" then 1 else 0)
  ∧ (lookupTally (aggStep m r) (catOf r)).aiViolation
      = (lookupTally m (catOf r)).aiViolation + (if aiOf r = "违规" then 1 else 0)
  ∧ (lookupTally (aggStep m r) (catOf r)).reviewerNormal
      = (lookupTally m (catOf r)).reviewerNormal + (if revOf r = "正常" then 1 else 0)
  ∧ (lookupTally (aggStep m r) (catOf r)).reviewerViolation
      = (lookupTally m (catOf r)).reviewerViolation + (if revOf r = "违规" then 1 else 0)
  ∧ ∀ c, c ≠ catOf r → lookupTally (aggStep m r) c = lookupTally m c := by
  have hstep : aggStep m r
      = updateAssoc m (catOf r) (fun t => applyVerdicts t (aiOf r) (revOf r)) := by
    simp [aggStep, h]
  have hself : lookupTally (aggStep m r) (catOf r)
      = applyVerdicts (lookupTally m (catOf r)) (aiOf r) (revOf r) := by
    simp [hstep, lookupTally, lookup_updateAssoc_self]
  refine ⟨?_, ?_, ?_, ?_, fun c hc => ?_⟩
  · rw [hself, applyVerdicts_eq]
  · rw [hself, applyVerdicts_eq]
  · rw [hself, applyVerdicts_eq]
  · rw [hself, applyVerdicts_eq]
  · simp [hstep, lookupTally, lookup_updateAssoc_ne m (catOf r) c _ hc]

/-- Witness for C1 at a concrete record (`ai = "正常"`, `reviewer = "违规"`,
category `"甲"`) on the empty map. -/
theorem aggStep_verdict_counters_witness :
    (lookupTally (aggStep [] ⟨.str "甲", .str "正常", .str "违规"⟩)
        (catOf ⟨.str "甲", .str "正常", .str "违规"⟩)).aiNormal
      = (lookupTally [] (catOf ⟨.str "甲", .str "正常", .str "违规"⟩)).aiNormal
        + (if aiOf ⟨.str "甲", .str "正常", .str "违规"⟩ = "正常" then 1 else 0) :=
  (aggStep_verdict_counters [] ⟨.str "甲", .str "正常", .str "违规"⟩ (by decide)).1

/-- C2: a record whose normalized category is empty is skipped entirely —
the loop step leaves the map unchanged, and dropping such a record from any
record list leaves the whole aggregation result unchanged, even when its
verdict values are valid verdict strings. -/
theorem aggStep_skips_empty_category (m : List (String × Tally)) (r : RecordVals)
    (h : catOf r = "") :
    aggStep m r = m
  ∧ ∀ (le : String → String → Bool) (rs₁ rs₂ : List RecordVals),
      aggregate le (rs₁ ++ r :: rs₂) = aggregate le (rs₁ ++ rs₂) := by
  have hid : ∀ m' : List (String × Tally), aggStep m' r = m' := by
    intro m'; simp [aggStep, h]
  refine ⟨hid m, fun le rs₁ rs₂ => ?_⟩
  unfold aggregate aggregateMap
  rw [List.foldl_append, List.foldl_append, List.foldl_cons, hid]

/-- Witness for C2 at a concrete record with empty category (`null` behavior
value) but valid verdict texts, on a non-trivial map and record list. -/
theorem aggStep_skips_empty_category_witness :
    aggStep [("甲", ⟨1, 0, 0, 0⟩)] ⟨.jsNull, .str "正常", .str "违规"⟩
      = [("甲", ⟨1, 0, 0, 0⟩)] :=
  (aggStep_skips_empty_category [("甲", ⟨1, 0, 0, 0⟩)]
    ⟨.jsNull, .str "正常", .str "违规"⟩ (by decide)).1

/-! ## Lemmas about the stable sort -/

theorem insertLe_perm (le : String → String → Bool) (p : String × Tally)
    (l : List (String × Tally)) : (insertLe le p l).Perm (p :: l) := by
  induction l with
  | nil => exact List.Perm.refl _
  | cons q rest ih =>
    by_cases hpq : le p.1 q.1 = true
    · simp [insertLe, hpq]
    · simp only [insertLe, hpq]
      rw [if_neg (by simp [hpq])]
      exact (ih.cons q).trans (List.Perm.swap p q rest)

theorem sortSeries_perm (le : String → String → Bool)
    (l : List (String × Tally)) : (sortSeries le l).Perm l := by
  induction l with
  | nil => exact List.Perm.refl _
  | cons p rest ih => exact (insertLe_perm le p (sortSeries le rest)).trans (ih.cons p)

theorem pairwise_insertLe (le : String → String → Bool)
    (htrans : ∀ a b c, le a b = true → le b c = true → le a c = true)
    (htotal : ∀ a b, le a b = true ∨ le b a = true)
    (p : String × Tally) (l : List (String × Tally))
    (hl : l.Pairwise (fun x y => le x.1 y.1 = true)) :
    (insertLe le p l).Pairwise (fun x y => le x.1 y.1 = true) := by
  induction l with
  | nil => simp [insertLe]
  | cons q rest ih =>
    rcases List.pairwise_cons.mp hl with ⟨hq, hrest⟩
    by_cases hpq : le p.1 q.1 = true
    · rw [insertLe, if_pos hpq]
      refine List.pairwise_cons.mpr ⟨?_, hl⟩
      intro x hx
      rcases List.mem_cons.mp hx with rfl | hx
      · exact hpq
      · exact htrans p.1 q.1 x.1 hpq (hq x hx)
    · rw [insertLe, if_neg hpq]
      refine List.pairwise_cons.mpr ⟨?_, ih hrest⟩
      intro x hx
      rcases List.mem_cons.mp ((insertLe_perm le p rest).mem_iff.mp hx) with hxp | hx
      · rw [hxp]
        rcases htotal p.1 q.1 with h | h
        · exact absurd h hpq
        · exact h
      · exact hq x hx

theorem sortSeries_sorted (le : String → String → Bool)
    (htrans : ∀ a b c, le a b = true → le b c = true → le a c = true)
    (htotal : ∀ a b, le a b = true ∨ le b a = true)
    (l : List (String × Tally)) :
    (sortSeries le l).Pairwise (fun x y => le x.1 y.1 = true) := by
  induction l with
  | nil => simp [sortSeries]
  | cons p rest ih => exact pairwise_insertLe le htrans htotal p _ ih

/-! ## The concrete comparator is a linear order -/

theorem cpLeAux_nil (bs : List Char) : cpLeAux [] bs = true := rfl

theorem cpLeAux_total : ∀ as bs : List Char, cpLeAux as bs = true ∨ cpLeAux bs as = true
  | [], _ => Or.inl rfl
  | _ :: _, [] => Or.inr rfl
  | a :: as, b :: bs => by
    rcases Nat.lt_trichotomy a.toNat b.toNat with h | h | h
    · exact Or.inl (by simp [cpLeAux, h])
    · rcases cpLeAux_total as bs with ih | ih
      · exact Or.inl (by simp [cpLeAux, h, Nat.lt_irrefl, ih])
      · exact Or.inr (by simp [cpLeAux, h, Nat.lt_irrefl, ih])
    · exact Or.inr (by simp [cpLeAux, h])

theorem cpLeAux_trans : ∀ as bs cs : List Char, cpLeAux as bs = true →
    cpLeAux bs cs = true → cpLeAux as cs = true
  | [], _, cs, _, _ => cpLeAux_nil cs
  | _ :: _, [], _, h, _ => by simp [cpLeAux] at h
  | _ :: _, _ :: _, [], _, h => by simp [cpLeAux] at h
  | a :: as, b :: bs, c :: cs, h1, h2 => by
    simp only [cpLeAux] at h1 h2 ⊢
    split_ifs at h1 h2 ⊢ <;>
      first
        | rfl
        | omega
        | exact cpLeAux_trans as bs cs h1 h2

theorem charToNat_inj {a b : Char} (h : a.toNat = b.toNat) : a = b := by
  have hv : a.val.toBitVec.toNat = b.val.toBitVec.toNat := h
  have : a.val = b.val := UInt32.val_injective (Fin.ext hv)
  exact Char.eq_of_val_eq this

theorem cpLeAux_antisymm : ∀ as bs : List Char, cpLeAux as bs = true →
    cpLeAux bs as = true → as = bs
  | [], [], _, _ => rfl
  | [], _ :: _, _, h => by simp [cpLeAux] at h
  | _ :: _, [], h, _ => by simp [cpLeAux] at h
  | a :: as, b :: bs, h1, h2 => by
    rcases Nat.lt_trichotomy a.toNat b.toNat with h | h | h
    · simp only [cpLeAux] at h2
      rw [if_neg (by omega), if_pos h] at h2
      exact absurd h2 (by simp)
    · simp only [cpLeAux] at h1 h2
      rw [if_neg (by omega), if_neg (by omega)] at h1
      rw [if_neg (by omega), if_neg (by omega)] at h2
      have hab : a = b := charToNat_inj h
      rw [hab, cpLeAux_antisymm as bs h1 h2]
    · simp only [cpLeAux] at h1
      rw [if_neg (by omega), if_pos h] at h1
      exact absurd h1 (by simp)

theorem cpLe_total (a b : String) : cpLe a b = true ∨ cpLe b a = true :=
  cpLeAux_total a.data b.data

theorem cpLe_trans (a b c : String) (h1 : cpLe a b = true) (h2 : cpLe b c = true) :
    cpLe a c = true :=
  cpLeAux_trans a.data b.data c.data h1 h2

theorem cpLe_antisymm (a b : String) (h1 : cpLe a b = true) (h2 : cpLe b a = true) :
    a = b :=
  String.ext (cpLeAux_antisymm a.data b.data h1 h2)

/-! ## Characterizing the aggregation map -/

theorem mem_keys_updateAssoc (m : List (String × Tally)) (k c : String)
    (f : Tally → Tally) :
    c ∈ keys (updateAssoc m k f) ↔ c ∈ keys m ∨ c = k := by
  induction m with
  | nil => simp [updateAssoc, keys]
  | cons p rest ih =>
    obtain ⟨k', t⟩ := p
    by_cases hk : k' = k
    · subst hk
      have hred : updateAssoc ((k', t) :: rest) k' f = (k', f t) :: rest := by
        simp [updateAssoc]
      rw [hred]
      simp only [keys, List.map_cons, List.mem_cons]
      tauto
    · simp only [updateAssoc, if_neg hk, keys, List.map_cons, List.mem_cons]
      rw [show (List.map Prod.fst (updateAssoc rest k f)) = keys (updateAssoc rest k f) from rfl, ih]
      rw [show (List.map Prod.fst rest) = keys rest from rfl]
      tauto

theorem nodup_keys_updateAssoc (m : List (String × Tally)) (k : String)
    (f : Tally → Tally) (h : (keys m).Nodup) : (keys (updateAssoc m k f)).Nodup := by
  induction m with
  | nil => simp [updateAssoc, keys]
  | cons p rest ih =>
    obtain ⟨k', t⟩ := p
    simp only [keys, List.map_cons, List.nodup_cons] at h
    by_cases hk : k' = k
    · subst hk
      have hred : updateAssoc ((k', t) :: rest) k' f = (k', f t) :: rest := by
        simp [updateAssoc]
      rw [hred]
      simp only [keys, List.map_cons, List.nodup_cons]
      exact h
    · simp only [updateAssoc, if_neg hk, keys, List.map_cons, List.nodup_cons]
      refine ⟨?_, ih h.2⟩
      intro hmem
      rcases (mem_keys_updateAssoc rest k k' f).mp hmem with h' | h'
      · exact h.1 h'
      · exact hk h'

theorem mem_keys_aggStep (m : List (String × Tally)) (r : RecordVals) (c : String) :
    c ∈ keys (aggStep m r) ↔ c ∈ keys m ∨ (catOf r ≠ "" ∧ catOf r = c) := by
  by_cases h : catOf r = ""
  · simp [aggStep, h]
  · rw [aggStep, if_neg h, mem_keys_updateAssoc]
    constructor
    · rintro (h1 | h1)
      · exact Or.inl h1
      · exact Or.inr ⟨h, h1.symm⟩
    · rintro (h1 | ⟨_, h1⟩)
      · exact Or.inl h1
      · exact Or.inr h1.symm

theorem nodup_keys_aggStep (m : List (String × Tally)) (r : RecordVals)
    (h : (keys m).Nodup) : (keys (aggStep m r)).Nodup := by
  by_cases hc : catOf r = ""
  · simpa [aggStep, hc] using h
  · rw [aggStep, if_neg hc]
    exact nodup_keys_updateAssoc m _ _ h

theorem nodup_keys_foldl (rs : List RecordVals) :
    ∀ m, (keys m).Nodup → (keys (rs.foldl aggStep m)).Nodup := by
  induction rs with
  | nil => intro m hm; simpa using hm
  | cons r rest ih =>
    intro m hm
    rw [List.foldl_cons]
    exact ih _ (nodup_keys_aggStep m r hm)

theorem nodup_keys_aggregateMap (rs : List RecordVals) :
    (keys (aggregateMap rs)).Nodup :=
  nodup_keys_foldl rs [] (by simp [keys])

theorem mem_keys_foldl (rs : List RecordVals) :
    ∀ m c, c ∈ keys (rs.foldl aggStep m) ↔
      c ∈ keys m ∨ (c ≠ "" ∧ ∃ r ∈ rs, catOf r = c) := by
  induction rs with
  | nil => intro m c; simp
  | cons r rest ih =>
    intro m c
    rw [List.foldl_cons, ih, mem_keys_aggStep]
    have hsplit : (∃ x ∈ r :: rest, catOf x = c) ↔
        (catOf r = c ∨ ∃ x ∈ rest, catOf x = c) := by
      simp
    rw [hsplit]
    constructor
    · rintro ((h1 | ⟨h1, h2⟩) | ⟨h1, h2⟩)
      · exact Or.inl h1
      · exact Or.inr ⟨h2 ▸ h1, Or.inl h2⟩
      · exact Or.inr ⟨h1, Or.inr h2⟩
    · rintro (h1 | ⟨h1, h2 | h2⟩)
      · exact Or.inl (Or.inl h1)
      · exact Or.inl (Or.inr ⟨h2 ▸ h1, h2⟩)
      · exact Or.inr ⟨h1, h2⟩

theorem mem_keys_aggregateMap (rs : List RecordVals) (c : String) :
    c ∈ keys (aggregateMap rs) ↔ c ≠ "" ∧ ∃ r ∈ rs, catOf r = c := by
  rw [aggregateMap, mem_keys_foldl]
  simp [keys]

theorem lookupTally_aggStep (m : List (String × Tally)) (r : RecordVals)
    (c : String) (hc : c ≠ "") :
    lookupTally (aggStep m r) c =
      if catOf r = c
      then applyVerdicts (lookupTally m c) (aiOf r) (revOf r)
      else lookupTally m c := by
  by_cases h : catOf r = ""
  · have hne : catOf r ≠ c := by rw [h]; exact fun hh => hc hh.symm
    simp [aggStep, h, hne, Ne.symm hc]
  · by_cases heq : catOf r = c
    · subst heq
      simp [aggStep, h, lookupTally, lookup_updateAssoc_self]
    · have hcc : c ≠ catOf r := fun hh => heq hh.symm
      simp only [aggStep, if_neg h, if_neg heq, lookupTally]
      rw [lookup_updateAssoc_ne m (catOf r) c _ hcc]

theorem tallyOf_append_one (rs : List RecordVals) (r : RecordVals) (c : String) :
    tallyOf (rs ++ [r]) c =
      if catOf r = c
      then applyVerdicts (tallyOf rs c) (aiOf r) (revOf r)
      else tallyOf rs c := by
  by_cases heq : catOf r = c
  · rw [if_pos heq, applyVerdicts_eq]
    simp only [tallyOf, List.countP_append, List.countP_cons, List.countP_nil,
      Nat.zero_add]
    simp [heq]
  · rw [if_neg heq]
    simp only [tallyOf, List.countP_append, List.countP_cons, List.countP_nil,
      Nat.zero_add]
    simp [heq]

theorem lookupTally_aggregateMap (rs : List RecordVals) (c : String) (hc : c ≠ "") :
    lookupTally (aggregateMap rs) c = tallyOf rs c := by
  induction rs using List.reverseRecOn with
  | nil => simp [aggregateMap, lookupTally, List.lookup, tallyOf, Tally.zero]
  | append_singleton rs r ih =>
    have hfold : aggregateMap (rs ++ [r]) = aggStep (aggregateMap rs) r := by
      rw [aggregateMap, aggregateMap, List.foldl_append, List.foldl_cons, List.foldl_nil]
    rw [hfold, lookupTally_aggStep _ _ _ hc, tallyOf_append_one, ih]

theorem lookup_eq_of_mem (m : List (String × Tally)) (c : String) (t : Tally)
    (hnd : (keys m).Nodup) (hmem : (c, t) ∈ m) : m.lookup c = some t := by
  induction m with
  | nil => simp at hmem
  | cons p rest ih =>
    obtain ⟨k', t'⟩ := p
    simp only [keys, List.map_cons, List.nodup_cons] at hnd
    rcases List.mem_cons.mp hmem with heq | hmem'
    · obtain ⟨h1, h2⟩ := Prod.mk.injEq .. ▸ heq
      subst h1; subst h2
      simp [List.lookup]
    · have hck : c ≠ k' := by
        intro hh
        subst hh
        exact hnd.1 (List.mem_map_of_mem Prod.fst hmem')
      have hbeq : (c == k') = false := beq_eq_false_iff_ne.mpr hck
      simp [List.lookup, hbeq, ih hnd.2 hmem']

theorem mem_aggregateMap_iff (rs : List RecordVals) (c : String) (t : Tally) :
    (c, t) ∈ aggregateMap rs ↔
      c ≠ "" ∧ (∃ r ∈ rs, catOf r = c) ∧ t = tallyOf rs c := by
  constructor
  · intro hmem
    have hk : c ∈ keys (aggregateMap rs) := List.mem_map_of_mem Prod.fst hmem
    obtain ⟨hc, hex⟩ := (mem_keys_aggregateMap rs c).mp hk
    have hl : (aggregateMap rs).lookup c = some t :=
      lookup_eq_of_mem _ _ _ (nodup_keys_aggregateMap rs) hmem
    have ht : lookupTally (aggregateMap rs) c = t := by simp [lookupTally, hl]
    exact ⟨hc, hex, by rw [← ht, lookupTally_aggregateMap _ _ hc]⟩
  · rintro ⟨hc, hex, ht⟩
    have hk : c ∈ keys (aggregateMap rs) := (mem_keys_aggregateMap rs c).mpr ⟨hc, hex⟩
    obtain ⟨p, hp, hpc⟩ := List.mem_map.mp hk
    obtain ⟨c', t'⟩ := p
    have hc' : c' = c := hpc
    rw [hc'] at hp
    have hl : (aggregateMap rs).lookup c = some t' :=
      lookup_eq_of_mem _ _ _ (nodup_keys_aggregateMap rs) hp
    have ht' : t' = tallyOf rs c := by
      have := lookupTally_aggregateMap rs c hc
      rw [lookupTally, hl] at this
      simpa using this
    rw [ht, ← ht']
    exact hp

/-! ## Claims about the whole aggregation pipeline -/

theorem aggregate_eq_of_perm (le : String → String → Bool)
    (htrans : ∀ a b c, le a b = true → le b c = true → le a c = true)
    (htotal : ∀ a b, le a b = true ∨ le b a = true)
    (hanti : ∀ a b, le a b = true → le b a = true → a = b)
    (rs₁ rs₂ : List RecordVals) (hp : rs₁.Perm rs₂) :
    aggregate le rs₁ = aggregate le rs₂ := by
  have htally : ∀ c, tallyOf rs₁ c = tallyOf rs₂ c := by
    intro c
    unfold tallyOf
    rw [hp.countP_eq, hp.countP_eq, hp.countP_eq, hp.countP_eq]
  have hmem : ∀ p : String × Tally, p ∈ aggregateMap rs₁ ↔ p ∈ aggregateMap rs₂ := by
    rintro ⟨c, t⟩
    rw [mem_aggregateMap_iff, mem_aggregateMap_iff, htally c]
    constructor <;> rintro ⟨h1, ⟨r, hr, hcat⟩, h3⟩
    · exact ⟨h1, ⟨r, hp.mem_iff.mp hr, hcat⟩, h3⟩
    · exact ⟨h1, ⟨r, hp.mem_iff.mpr hr, hcat⟩, h3⟩
  have hnd₁ : (aggregateMap rs₁).Nodup := (nodup_keys_aggregateMap rs₁).of_map
  have hnd₂ : (aggregateMap rs₂).Nodup := (nodup_keys_aggregateMap rs₂).of_map
  have hMperm : (aggregateMap rs₁).Perm (aggregateMap rs₂) :=
    (List.perm_ext_iff_of_nodup hnd₁ hnd₂).mpr hmem
  have hSperm : (aggregate le rs₁).Perm (aggregate le rs₂) :=
    ((sortSeries_perm le _).trans hMperm).trans (sortSeries_perm le _).symm
  have hs₁ := sortSeries_sorted le htrans htotal (aggregateMap rs₁)
  have hs₂ := sortSeries_sorted le htrans htotal (aggregateMap rs₂)
  have hks₁ : (keys (aggregate le rs₁)).Sorted (fun a b => le a b = true) :=
    hs₁.map Prod.fst (fun a b hab => hab)
  have hks₂ : (keys (aggregate le rs₂)).Sorted (fun a b => le a b = true) :=
    hs₂.map Prod.fst (fun a b hab => hab)
  have hkeq : keys (aggregate le rs₁) = keys (aggregate le rs₂) := by
    haveI : IsAntisymm String (fun a b => le a b = true) := ⟨hanti⟩
    exact List.eq_of_perm_of_sorted (hSperm.map Prod.fst) hks₁ hks₂
  have hrec : ∀ (l : List (String × Tally)) (f : String → Tally),
      (∀ p ∈ l, p.2 = f p.1) → l = (keys l).map (fun c => (c, f c)) := by
    intro l f hf
    induction l with
    | nil => rfl
    | cons p rest ih =>
      obtain ⟨c, t⟩ := p
      have h1 : t = f c := hf (c, t) (List.mem_cons_self _ _)
      have hrest := ih (fun q hq => hf q (List.mem_cons_of_mem _ hq))
      calc (c, t) :: rest
          = (c, f c) :: rest := by rw [h1]
        _ = (c, f c) :: (keys rest).map (fun x => (x, f x)) := by rw [← hrest]
        _ = (keys ((c, t) :: rest)).map (fun x => (x, f x)) := rfl
  have hv₁ : ∀ p ∈ aggregate le rs₁, p.2 = tallyOf rs₁ p.1 := by
    rintro ⟨c, t⟩ hpmem
    have hp' : (c, t) ∈ aggregateMap rs₁ :=
      (sortSeries_perm le (aggregateMap rs₁)).mem_iff.mp hpmem
    exact ((mem_aggregateMap_iff rs₁ c t).mp hp').2.2
  have hv₂ : ∀ p ∈ aggregate le rs₂, p.2 = tallyOf rs₂ p.1 := by
    rintro ⟨c, t⟩ hpmem
    have hp' : (c, t) ∈ aggregateMap rs₂ :=
      (sortSeries_perm le (aggregateMap rs₂)).mem_iff.mp hpmem
    exact ((mem_aggregateMap_iff rs₂ c t).mp hp').2.2
  have hfun : (fun c => (c, tallyOf rs₁ c)) = (fun c => (c, tallyOf rs₂ c)) := by
    funext c
    rw [htally c]
  calc aggregate le rs₁
      = (keys (aggregate le rs₁)).map (fun c => (c, tallyOf rs₁ c)) :=
        hrec _ _ hv₁
    _ = (keys (aggregate le rs₂)).map (fun c => (c, tallyOf rs₂ c)) := by
        rw [hkeq, hfun]
    _ = aggregate le rs₂ := (hrec _ _ hv₂).symm

/-- C6: for a lawful (transitive, total, antisymmetric) collation comparator,
the result series has exactly one entry per distinct non-empty category
observed in the records (no duplicates, and a category appears iff some
record has it), and is sorted ascending by category text under the
comparator, independently of the order the categories were observed in
(permuting the records leaves the series unchanged). -/
theorem aggregate_sorted_unique (le : String → String → Bool)
    (htrans : ∀ a b c, le a b = true → le b c = true → le a c = true)
    (htotal : ∀ a b, le a b = true ∨ le b a = true)
    (hanti : ∀ a b, le a b = true → le b a = true → a = b)
    (rs : List RecordVals) :
    (aggregate le rs).Pairwise (fun p q => le p.1 q.1 = true)
  ∧ (keys (aggregate le rs)).Nodup
  ∧ (∀ c, c ∈ keys (aggregate le rs) ↔ c ≠ "" ∧ ∃ r ∈ rs, catOf r = c)
  ∧ (∀ rs', rs.Perm rs' → aggregate le rs = aggregate le rs') := by
  have hperm : (aggregate le rs).Perm (aggregateMap rs) :=
    sortSeries_perm le (aggregateMap rs)
  have hkperm : (keys (aggregate le rs)).Perm (keys (aggregateMap rs)) :=
    hperm.map Prod.fst
  refine ⟨sortSeries_sorted le htrans htotal _, ?_, fun c => ?_, fun rs' hp => ?_⟩
  · exact hkperm.nodup_iff.mpr (nodup_keys_aggregateMap rs)
  · rw [hkperm.mem_iff, mem_keys_aggregateMap]
  · exact aggregate_eq_of_perm le htrans htotal hanti rs rs' hp

/-- Witness for C6: the spec's example categories 乙, 甲, 丙 (observed in that
order) under the concrete lawful comparator. -/
theorem aggregate_sorted_unique_witness :
    (aggregate cpLe [⟨.str "乙", .str "正常", .str "正常"⟩,
                     ⟨.str "甲", .str "违规", .str "正常"⟩,
                     ⟨.str "丙", .str "正常", .str "违规"⟩]).Pairwise
      (fun p q => cpLe p.1 q.1 = true) :=
  (aggregate_sorted_unique cpLe cpLe_trans cpLe_total cpLe_antisymm
    [⟨.str "乙", .str "正常", .str "正常"⟩,
     ⟨.str "甲", .str "违规", .str "正常"⟩,
     ⟨.str "丙", .str "正常", .str "违规"⟩]).1

/-- C10: for a lawful (transitive, total, antisymmetric) collation comparator,
the result series — entries and order — is invariant under permuting the
record list: record order affects neither the counts nor the output order. -/
theorem aggregate_perm_invariant (le : String → String → Bool)
    (htrans : ∀ a b c, le a b = true → le b c = true → le a c = true)
    (htotal : ∀ a b, le a b = true ∨ le b a = true)
    (hanti : ∀ a b, le a b = true → le b a = true → a = b)
    (rs₁ rs₂ : List RecordVals) (hp : rs₁.Perm rs₂) :
    aggregate le rs₁ = aggregate le rs₂ :=
  aggregate_eq_of_perm le htrans htotal hanti rs₁ rs₂ hp

/-- Witness for C10: two concrete record lists that are permutations of each
other produce the same series under the concrete lawful comparator. -/
theorem aggregate_perm_invariant_witness :
    aggregate cpLe [⟨.str "乙", .str "正常", .str "违规"⟩,
                    ⟨.str "甲", .str "违规", .str "正常"⟩]
      = aggregate cpLe [⟨.str "甲", .str "违规", .str "正常"⟩,
                        ⟨.str "乙", .str "正常", .str "违规"⟩] :=
  aggregate_perm_invariant cpLe cpLe_trans cpLe_total cpLe_antisymm _ _
    (List.Perm.swap _ _ [])

/-! ## Claims about the display effect -/

theorem runEffect_skip (le : String → String → Bool) (cfg : IChartConfig)
    (h : Host) (s : UIState) (hg : gateB cfg = false) :
    runEffect le false cfg h s = (s, 0) := by
  simp [runEffect, hg]

/-- C3 counterexample: with the behavior column unset, the effect makes zero
accessor calls but does not return/display an empty series — a previously
displayed non-empty series stays on screen, so "returns an empty series" is
false in that state. -/
theorem gate_unset_counterexample :
    gateB ⟨none, some "f2", some "f3"⟩ = false
  ∧ (runEffect cpLe false ⟨none, some "f2", some "f3"⟩
      ⟨["r1"], fun _ _ => .ok (.str "正常")⟩
      ⟨[("甲", ⟨1, 0, 0, 0⟩)], false⟩).2 = 0
  ∧ (runEffect cpLe false ⟨none, some "f2", some "f3"⟩
      ⟨["r1"], fun _ _ => .ok (.str "正常")⟩
      ⟨[("甲", ⟨1, 0, 0, 0⟩)], false⟩).1.data ≠ [] := by
  decide

/-- C3 (amended): when any of the three configured column ids is unset or
empty the effect makes zero `getValue` calls and changes nothing — it emits
no new series, leaving the displayed series exactly as it was (hence empty
only on a fresh mount). -/
theorem runEffect_gate_unset (le : String → String → Bool) (cfg : IChartConfig)
    (h : Host) (s : UIState) (hg : gateB cfg = false) :
    runEffect le false cfg h s = (s, 0) :=
  runEffect_skip le cfg h s hg

/-- Witness for the amended C3: a configuration whose behavior id is the
empty string. -/
theorem runEffect_gate_unset_witness :
    runEffect cpLe false ⟨some "", some "f2", some "f3"⟩
      ⟨[], fun _ _ => .ok .jsNull⟩ ⟨[], false⟩ = (⟨[], false⟩, 0) :=
  runEffect_gate_unset cpLe ⟨some "", some "f2", some "f3"⟩
    ⟨[], fun _ _ => .ok .jsNull⟩ ⟨[], false⟩ (by decide)

/-- C4: if the record loop fails (some accessor call rejects), the effect
never surfaces a partially aggregated series: the previously displayed series
is retained unchanged, and the run ends with the loading flag cleared. -/
theorem runEffect_accessor_failure (le : String → String → Bool)
    (cfg : IChartConfig) (h : Host) (s : UIState) (e : Unit)
    (hg : gateB cfg = true)
    (hfail : (runLoop h (cfg.behaviorFieldId.getD "") (cfg.aiFieldId.getD "")
        (cfg.reviewerFieldId.getD "") h.recordIds []).1 = .error e) :
    (runEffect le false cfg h s).1.data = s.data
  ∧ (runEffect le false cfg h s).1.loading = false := by
  rcases hEq : runLoop h (cfg.behaviorFieldId.getD "") (cfg.aiFieldId.getD "")
      (cfg.reviewerFieldId.getD "") h.recordIds [] with ⟨res, n⟩
  rw [hEq] at hfail
  simp only at hfail
  subst hfail
  simp [runEffect, hg, hEq]

/-- Witness for C4: the second record's accessor call rejects; the previously
displayed series survives unchanged and loading ends false. -/
theorem runEffect_accessor_failure_witness :
    (runEffect cpLe false ⟨some "f1", some "f2", some "f3"⟩
        ⟨["r1", "r2"], fun _ rid => if rid = "r2" then .error () else .ok (.str "甲")⟩
        ⟨[("乙", ⟨0, 1, 0, 0⟩)], false⟩).1.data = [("乙", ⟨0, 1, 0, 0⟩)]
  ∧ (runEffect cpLe false ⟨some "f1", some "f2", some "f3"⟩
        ⟨["r1", "r2"], fun _ rid => if rid = "r2" then .error () else .ok (.str "甲")⟩
        ⟨[("乙", ⟨0, 1, 0, 0⟩)], false⟩).1.loading = false :=
  runEffect_accessor_failure cpLe ⟨some "f1", some "f2", some "f3"⟩
    ⟨["r1", "r2"], fun _ rid => if rid = "r2" then .error () else .ok (.str "甲")⟩
    ⟨[("乙", ⟨0, 1, 0, 0⟩)], false⟩ () (by decide) (by rfl)

/-- C7 counterexample: a reachable two-step trace — configure fully and
aggregate a non-empty series, then unset the behavior column — ends with the
gate false yet the old series still displayed, refuting "whenever the gate is
false the displayed series is empty". -/
theorem stale_series_counterexample :
    gateB ⟨none, some "f2", some "f3"⟩ = false
  ∧ (runTrace cpLe
      [(⟨some "f1", some "f2", some "f3"⟩,
        ⟨["r1"], fun f _ => .ok (.str (if f = "f1" then "甲" else "正常"))⟩),
       (⟨none, some "f2", some "f3"⟩,
        ⟨["r1"], fun f _ => .ok (.str (if f = "f1" then "甲" else "正常"))⟩)]).data
      ≠ [] := by
  decide

/-- C7 (amended): when the gate is false the engine does not clear the
previously computed series — an effect run with an incomplete configuration
leaves the displayed state of any trace exactly as it was. -/
theorem runTrace_gate_false_retains (le : String → String → Bool)
    (events : List (IChartConfig × Host)) (cfg : IChartConfig) (h : Host)
    (hg : gateB cfg = false) :
    runTrace le (events ++ [(cfg, h)]) = runTrace le events := by
  rw [runTrace, runTrace, List.foldl_append, List.foldl_cons, List.foldl_nil]
  rw [runEffect_skip le cfg h _ hg]

/-- Witness for the amended C7 on a concrete one-event trace. -/
theorem runTrace_gate_false_retains_witness :
    runTrace cpLe ([] ++ [(⟨none, none, none⟩, ⟨[], fun _ _ => .ok .jsNull⟩)])
      = runTrace cpLe [] :=
  runTrace_gate_false_retains cpLe [] ⟨none, none, none⟩
    ⟨[], fun _ _ => .ok .jsNull⟩ (by decide)
